import Mathlib

/-!
Shallow embedding of the bytewax core operators (`src/operators.rs`,
`src/outputs.rs`) and proofs of the specification claims about them.

Rust `BTreeSet`/`BTreeMap` values are embedded as sorted lists / sorted
association lists; `DateTime<Utc>` as `Int`; `std::time::Duration` as `Nat`;
opaque Python values, logic states and pickled snapshot payloads as type
parameters.  Fallible Python calls are embedded as `Except`/`Option` values.
-/

namespace Bytewax

/-- `StateKey`: a string-typed key used for partitioning and keyed state. -/
abbrev StateKey := String

/-- Epochs are u64 timestamps; within the ranges exercised here no overflow
arithmetic is performed on them, so they are embedded as `Nat`. -/
abbrev Epoch := Nat

/-- `chrono::DateTime<Utc>`: a totally ordered timestamp, embedded as `Int`. -/
abbrev Timestamp := Int

section SortedContainers

variable {α : Type*} [LinearOrder α] {β : Type*}

/-- `BTreeSet::insert` on the sorted-list embedding of a `BTreeSet`. -/
def setInsert (a : α) : List α → List α
  | [] => [a]
  | b :: t =>
    if a < b then a :: b :: t
    else if a = b then b :: t
    else b :: setInsert a t

/-- `BTreeMap::insert` (replacing any existing binding) on the sorted
association-list embedding of a `BTreeMap`. -/
def mapInsert (k : α) (v : β) : List (α × β) → List (α × β)
  | [] => [(k, v)]
  | (k', v') :: t =>
    if k < k' then (k, v) :: (k', v') :: t
    else if k = k' then (k, v) :: t
    else (k', v') :: mapInsert k v t

/-- `BTreeMap::remove` / `StateStoreCache::remove`: drop the binding for `k`. -/
def mapErase (k : α) : List (α × β) → List (α × β)
  | [] => []
  | kv :: t => if kv.1 = k then mapErase k t else kv :: mapErase k t

/-- `BTreeMap::get` on the sorted association-list embedding. -/
def mapLookup (k : α) : List (α × β) → Option β
  | [] => none
  | (k', v') :: t => if k = k' then some v' else mapLookup k t

end SortedContainers

/-- Modelled from the spec: `SnapshotMode` lives in `crate::recovery`, which is
not part of the sources; the spec states `snapshot_mode ∈ {Immediate, Batch}`. -/
inductive SnapshotMode where
  | Immediate : SnapshotMode
  | Batch : SnapshotMode
deriving DecidableEq

/-- Modelled from the spec: `SnapshotMode::immediate` predicate. -/
def SnapshotMode.immediate : SnapshotMode → Bool
  | .Immediate => true
  | .Batch => false

/-- Modelled from the spec: `SnapshotMode::batch` predicate. -/
def SnapshotMode.batch : SnapshotMode → Bool
  | .Immediate => false
  | .Batch => true

/-- Modelled from the spec: a timely input frontier over totally ordered `u64`
epochs is an antichain that is either empty (EOF) or a single epoch, so it is
embedded as `Option Epoch` with `none` meaning an empty (EOF) frontier. -/
abbrev Frontier := Option Epoch

/-- Modelled from the spec: "An epoch is closed when the frontier has advanced
strictly past it"; every epoch is closed under an empty (EOF) frontier. -/
def Frontier.isClosed : Frontier → Epoch → Bool
  | none, _ => true
  | some f, e => decide (e < f)

/-- Modelled from the spec: the input is at EOF when the frontier is empty. -/
def Frontier.isEof : Frontier → Bool
  | none => true
  | some _ => false

/-- Frontier progress order: timely frontiers only advance, with the empty
(EOF) frontier as the top element. -/
def frLE : Frontier → Frontier → Bool
  | _, none => true
  | none, some _ => false
  | some a, some b => decide (a ≤ b)

/-- `SerializedSnapshot`: tuple `(step_id, state_key, epoch, payload?)` where a
`none` payload is a tombstone.  `Ω` is the type of pickled payload blobs. -/
structure SerializedSnapshot (Ω : Type*) where
  step : String
  key : StateKey
  epoch : Epoch
  payload : Option Ω
deriving DecidableEq

/-- The user-supplied `StatefulBatchLogic` behaviour: per-key logic objects are
opaque Python values mutated in place by their callbacks, embedded as a state
type `σ` together with pure transition functions.  The `Bool` in the callback
results is the raw `is_complete` flag (`true` = `IsComplete::Discard`). -/
structure StatefulLogicImpl (σ V Ω : Type*) where
  build : Option Ω → σ
  onBatchF : σ → List V → σ × List V × Bool
  onNotifyF : σ → σ × List V × Bool
  onEofF : σ → σ × List V × Bool
  notifyAtF : σ → Option Timestamp
  snapshotF : σ → Ω

/-- `StatefulBatchState` (operators.rs): per-step container owning the live
logics (the step's slice of the shared `StateStoreCache`), the wake schedule
cache, the awoken set and the snapshot mode.  The optional `LocalStateStore` is
embedded as the list of snapshots written to it so far (`none` = no store). -/
structure StatefulBatchState (σ Ω : Type*) where
  stepId : String
  localStateStore : Option (List (SerializedSnapshot Ω))
  logics : List (StateKey × σ)
  schedCache : List (StateKey × Timestamp)
  awoken : List StateKey
  snapshotMode : SnapshotMode
  resumeEpoch : Epoch

variable {σ V Ω : Type*}

/-- `StatefulBatchState::insert`: build a logic from resume bytes and store it
in the state store cache (replacing any prior entry for the key). -/
def sbInsert (ul : StatefulLogicImpl σ V Ω) (st : StatefulBatchState σ Ω)
    (key : StateKey) (resume : Option Ω) : StatefulBatchState σ Ω :=
  { st with logics := mapInsert key (ul.build resume) st.logics }

/-- `StatefulBatchState::contains_key`. -/
def sbContains (st : StatefulBatchState σ Ω) (key : StateKey) : Bool :=
  (mapLookup key st.logics).isSome

/-- `StatefulBatchState::keys`. -/
def sbKeys (st : StatefulBatchState σ Ω) : List StateKey :=
  st.logics.map (·.1)

/-- `StatefulBatchState::remove`: remove the logic from the state store cache,
drop its `sched_cache` entry (and call the logic's `close`, which has no
observable effect in the embedding). -/
def sbRemove (st : StatefulBatchState σ Ω) (key : StateKey) :
    StatefulBatchState σ Ω :=
  { st with
    logics := mapErase key st.logics
    schedCache := mapErase key st.schedCache }

/-- `StatefulBatchState::notify_keys`: all keys whose cached scheduled time is
`<= now`, in ascending key order (`BTreeMap` iteration order). -/
def sbNotifyKeys (st : StatefulBatchState σ Ω) (now : Timestamp) : List StateKey :=
  (st.schedCache.filter (fun kv => kv.2 ≤ now)).map (·.1)

/-- `StatefulBatchState::schedule`: write `sched_cache[key] = time`. -/
def sbSchedule (st : StatefulBatchState σ Ω) (key : StateKey) (time : Timestamp) :
    StatefulBatchState σ Ω :=
  { st with schedCache := mapInsert key time st.schedCache }

/-- `Iterator::min` over a list, as Rust computes it. -/
def listMin : List Nat → Option Nat
  | [] => none
  | a :: t => some (t.foldl min a)

/-- `StatefulBatchState::activate_after`: minimum over all cached scheduled
times of the saturating non-negative delta from `now` (`chrono`'s
`Duration::to_std` fails on negative durations and the code falls back to
`Duration::ZERO`, which is `Int.toNat` of the difference). -/
def sbActivateAfter (st : StatefulBatchState σ Ω) (now : Timestamp) : Option Nat :=
  listMin (st.schedCache.map (fun kv => (kv.2 - now).toNat))

/-- `StatefulBatchState::on_batch`: invoke the logic's `on_batch` callback and
add the key to `awoken`.  `none` embeds the `unwrap` panic on a missing logic;
callback type errors are modelled separately (`onBatchRet`). -/
def sbOnBatch (ul : StatefulLogicImpl σ V Ω) (st : StatefulBatchState σ Ω)
    (key : StateKey) (values : List V) :
    Option (StatefulBatchState σ Ω × List V × Bool) :=
  (mapLookup key st.logics).map fun s =>
    let r := ul.onBatchF s values
    ({ st with
        logics := mapInsert key r.1 st.logics
        awoken := setInsert key st.awoken },
      r.2.1, r.2.2)

/-- `StatefulBatchState::on_notify`: as `on_batch`, with no input values. -/
def sbOnNotify (ul : StatefulLogicImpl σ V Ω) (st : StatefulBatchState σ Ω)
    (key : StateKey) : Option (StatefulBatchState σ Ω × List V × Bool) :=
  (mapLookup key st.logics).map fun s =>
    let r := ul.onNotifyF s
    ({ st with
        logics := mapInsert key r.1 st.logics
        awoken := setInsert key st.awoken },
      r.2.1, r.2.2)

/-- `StatefulBatchState::on_eof`: final flush callback. -/
def sbOnEof (ul : StatefulLogicImpl σ V Ω) (st : StatefulBatchState σ Ω)
    (key : StateKey) : Option (StatefulBatchState σ Ω × List V × Bool) :=
  (mapLookup key st.logics).map fun s =>
    let r := ul.onEofF s
    ({ st with
        logics := mapInsert key r.1 st.logics
        awoken := setInsert key st.awoken },
      r.2.1, r.2.2)

/-- `StatefulBatchState::notify_at`: ask the logic for its next wake time;
when no live logic exists for the key, return `None` silently. -/
def sbNotifyAt (ul : StatefulLogicImpl σ V Ω) (st : StatefulBatchState σ Ω)
    (key : StateKey) : Option Timestamp :=
  match mapLookup key st.logics with
  | some s => ul.notifyAtF s
  | none => none

/-- `StatefulBatchState::snap`: serialize the logic's snapshot (payload is a
tombstone `none` when the logic was discarded). -/
def sbSnap (ul : StatefulLogicImpl σ V Ω) (st : StatefulBatchState σ Ω)
    (key : StateKey) (epoch : Epoch) : SerializedSnapshot Ω :=
  ⟨st.stepId, key, epoch, (mapLookup key st.logics).map ul.snapshotF⟩

/-- `StatefulBatchState::snapshots`: when `snapshot_mode` is `Immediate` or the
epoch is closed, drain `awoken` (in ascending key order, via
`BTreeSet::pop_first`) into snapshots, writing each to the `LocalStateStore`
when one is present; otherwise leave the state untouched and return nothing. -/
def sbSnapshots (ul : StatefulLogicImpl σ V Ω) (st : StatefulBatchState σ Ω)
    (epoch : Epoch) (isEpochClosed : Bool) :
    StatefulBatchState σ Ω × List (SerializedSnapshot Ω) :=
  if st.snapshotMode.immediate || isEpochClosed then
    let snaps := st.awoken.map (fun k => sbSnap ul st k epoch)
    ({ st with
        awoken := []
        localStateStore := st.localStateStore.map (· ++ snaps) },
      snaps)
  else (st, [])

/-- Modelled from the spec: `InBuffer` (crate::timely, not in the sources) is a
mapping from epoch to the ordered list of buffered items, here a sorted
association list. -/
abbrev InBuf (V : Type*) := List (Epoch × List (StateKey × V))

/-- Modelled from the spec: `InBuffer::extend`, appending one item under its
epoch (insertion order within an epoch is preserved). -/
def ibPush (e : Epoch) (x : StateKey × V) : InBuf V → InBuf V
  | [] => [(e, [x])]
  | (e', xs) :: t =>
    if e < e' then (e, [x]) :: (e', xs) :: t
    else if e = e' then (e', xs ++ [x]) :: t
    else (e', xs) :: ibPush e x t

/-- Modelled from the spec: `InBuffer::remove`, taking and clearing one epoch. -/
def ibRemove (e : Epoch) : InBuf V → Option (List (StateKey × V)) × InBuf V
  | [] => (none, [])
  | (e', xs) :: t =>
    if e = e' then (some xs, t)
    else
      let r := ibRemove e t
      (r.1, (e', xs) :: r.2)

/-- Modelled from the spec: `InBuffer::epochs`. -/
def ibEpochs (ib : InBuf V) : List Epoch := ib.map (·.1)

/-- The keyed-items grouping in the batch phase of `stateful_batch`:
`keyed_items.entry(key).or_default().push(value)` into a `BTreeMap`. -/
def groupByKey (items : List (StateKey × V)) : List (StateKey × List V) :=
  items.foldl
    (fun m kv =>
      match mapLookup kv.1 m with
      | some vs => mapInsert kv.1 (vs ++ [kv.2]) m
      | none => mapInsert kv.1 [kv.2] m)
    []

/-- Epoch selection in `stateful_batch` (operators.rs:907-929): start from
`{last_output_epoch}`, add every epoch in the `InBuffer`, retain only epochs
closed by the input frontier, and re-insert `frontier_epoch` when it is at or
past the resume epoch. -/
def selectEpochs (lastOut : Epoch) (ibEps : List Epoch) (frontier : Frontier)
    (resume : Epoch) : List Epoch :=
  let s0 := ibEps.foldl (fun acc e => setInsert e acc) (setInsert lastOut [])
  let s1 := s0.filter (fun e => frontier.isClosed e)
  let fe := frontier.getD lastOut
  if resume ≤ fe then setInsert fe s1 else s1

/-- Batch phase per-key loop of `stateful_batch` (operators.rs:963-988): build
the logic if absent, run `on_batch`, emit its output, and remove the logic on
`Discard`.  The `none` branch of `sbOnBatch` is the source's `unwrap`, which
cannot fire because the logic was just inserted. -/
def batchItems (ul : StatefulLogicImpl σ V Ω) :
    StatefulBatchState σ Ω → List (StateKey × List V) →
    StatefulBatchState σ Ω × List (StateKey × V)
  | st, [] => (st, [])
  | st, (k, vs) :: rest =>
    let st1 := if sbContains st k then st else sbInsert ul st k none
    match sbOnBatch ul st1 k vs with
    | none => batchItems ul st1 rest
    | some (st2, out, disc) =>
      let st3 := if disc then sbRemove st2 k else st2
      let r := batchItems ul st3 rest
      (r.1, out.map (fun v => (k, v)) ++ r.2)

/-- Notify phase of `stateful_batch` (operators.rs:995-1016): for each due key,
run `on_notify`, emit its output, and remove the logic on `Discard`. -/
def notifySteps (ul : StatefulLogicImpl σ V Ω) :
    StatefulBatchState σ Ω → List StateKey →
    StatefulBatchState σ Ω × List (StateKey × V)
  | st, [] => (st, [])
  | st, k :: rest =>
    match sbOnNotify ul st k with
    | none => notifySteps ul st rest
    | some (st1, out, disc) =>
      let st2 := if disc then sbRemove st1 k else st1
      let r := notifySteps ul st2 rest
      (r.1, out.map (fun v => (k, v)) ++ r.2)

/-- EOF phase walk of `stateful_batch` (operators.rs:1022-1043): run `on_eof`
for every remaining key, emitting output and collecting keys to discard. -/
def eofSteps (ul : StatefulLogicImpl σ V Ω) :
    StatefulBatchState σ Ω → List StateKey →
    StatefulBatchState σ Ω × List (StateKey × V) × List StateKey
  | st, [] => (st, [], [])
  | st, k :: rest =>
    match sbOnEof ul st k with
    | none => eofSteps ul st rest
    | some (st1, out, disc) =>
      let r := eofSteps ul st1 rest
      (r.1, out.map (fun v => (k, v)) ++ r.2.1,
        (if disc then [k] else []) ++ r.2.2)

/-- EOF phase of `stateful_batch` (operators.rs:1019-1049): walk a snapshot of
`state.keys()`, then apply the collected removes after the walk. -/
def eofPhase (ul : StatefulLogicImpl σ V Ω) (st : StatefulBatchState σ Ω) :
    StatefulBatchState σ Ω × List (StateKey × V) :=
  let r := eofSteps ul st (sbKeys st)
  (r.2.2.foldl sbRemove r.1, r.2.1)

/-- Reschedule phase of `stateful_batch` (operators.rs:1053-1062): for every
key in `awoken`, query `notify_at` and update `sched_cache` only when it
returns a timestamp. -/
def reschedPhase (ul : StatefulLogicImpl σ V Ω) (st : StatefulBatchState σ Ω) :
    StatefulBatchState σ Ω :=
  st.awoken.foldl
    (fun acc k =>
      match sbNotifyAt ul acc k with
      | some t => sbSchedule acc k t
      | none => acc)
    st

/-- One iteration of the per-epoch loop of `stateful_batch`
(operators.rs:935-1076): batch phase, notify phase, EOF phase, reschedule
phase, snapshot phase.  Emissions are returned untagged; both output
capabilities are already downgraded to this epoch by the caller. -/
def processOneEpoch (ul : StatefulLogicImpl σ V Ω) (frontier : Frontier)
    (now : Timestamp) (st : StatefulBatchState σ Ω) (ib : InBuf V)
    (epoch : Epoch) :
    (StatefulBatchState σ Ω × InBuf V) × List (StateKey × V) ×
      List (SerializedSnapshot Ω) :=
  let rem := ibRemove epoch ib
  let b :=
    match rem.1 with
    | none => (st, ([] : List (StateKey × V)))
    | some items => batchItems ul st (groupByKey items)
  let n := notifySteps ul b.1 (sbNotifyKeys b.1 now)
  let e := if frontier.isEof then eofPhase ul n.1 else (n.1, [])
  let st4 := reschedPhase ul e.1
  let s := sbSnapshots ul st4 epoch (frontier.isClosed epoch)
  ((s.1, rem.2), b.2 ++ n.2 ++ e.2, s.2)

/-- The per-epoch loop of `stateful_batch`: visit the selected epochs in
ascending order, downgrading both output capabilities to each epoch before
emitting, so every emission is tagged with the epoch being processed. -/
def processEpochs (ul : StatefulLogicImpl σ V Ω) (frontier : Frontier)
    (now : Timestamp) :
    List Epoch → StatefulBatchState σ Ω → InBuf V →
    (StatefulBatchState σ Ω × InBuf V) × List (Epoch × StateKey × V) ×
      List (SerializedSnapshot Ω)
  | [], st, ib => ((st, ib), [], [])
  | e :: rest, st, ib =>
    let r1 := processOneEpoch ul frontier now st ib e
    let r2 := processEpochs ul frontier now rest r1.1.1 r1.1.2
    (r2.1, r1.2.1.map (fun kv => (e, kv.1, kv.2)) ++ r2.2.1, r1.2.2 ++ r2.2.2)

/-- The persistent operator state of `stateful_batch`: the two output
capabilities (downgraded in lockstep, asserted equal in the source, hence one
optional epoch) and the cross-activation `InBuffer`, plus the step state. -/
structure OpState (σ V Ω : Type*) where
  cap : Option Epoch
  inbuf : InBuf V
  state : StatefulBatchState σ Ω

/-- One activation of the `stateful_batch` operator (operators.rs:870-1087):
early-return when the capabilities are dropped, ingest arrivals, select the
epochs to process, run the per-epoch loop in ascending order, and drop the
capabilities at EOF.  Returns the new operator state, the downstream emissions
tagged with their epochs, and the emitted snapshots. -/
def activation (ul : StatefulLogicImpl σ V Ω) (os : OpState σ V Ω)
    (arrivals : List (Epoch × StateKey × V)) (frontier : Frontier)
    (now : Timestamp) :
    OpState σ V Ω × List (Epoch × StateKey × V) × List (SerializedSnapshot Ω) :=
  match os.cap with
  | none => (os, [], [])
  | some lastOut =>
    let ib := arrivals.foldl (fun acc a => ibPush a.1 a.2 acc) os.inbuf
    let sel := selectEpochs lastOut (ibEpochs ib) frontier os.state.resumeEpoch
    let r := processEpochs ul frontier now sel os.state ib
    let newCap : Option Epoch :=
      if frontier.isEof then none else some (sel.getLast?.getD lastOut)
    (⟨newCap, r.1.2, r.1.1⟩, r.2.1, r.2.2)

/-- The per-activation input delivered by the dataflow substrate: newly arrived
records, the current input frontier, and the single wall-clock sample. -/
structure ActIn (V : Type*) where
  arrivals : List (Epoch × StateKey × V)
  frontier : Frontier
  now : Timestamp

/-- A whole run of the operator: fold `activation` over the activation inputs,
concatenating the downstream emissions. -/
def runTrace (ul : StatefulLogicImpl σ V Ω) :
    OpState σ V Ω → List (ActIn V) → OpState σ V Ω × List (Epoch × StateKey × V)
  | os, [] => (os, [])
  | os, a :: rest =>
    let r := activation ul os a.arrivals a.frontier a.now
    let r2 := runTrace ul r.1 rest
    (r2.1, r.2.1 ++ r2.2)

/-- The dataflow substrate's contract on an activation sequence (spec section 3:
the frontier is the lowest epoch for which more input may still arrive, and it
only advances): frontiers are non-decreasing and every arrival's epoch is at or
past the frontier of the preceding activation. -/
def TraceOk : Frontier → List (ActIn V) → Bool
  | _, [] => true
  | fp, a :: rest =>
    frLE fp a.frontier && a.arrivals.all (fun x => frLE fp (some x.1)) &&
      TraceOk a.frontier rest

/-- The freshly built operator: both capabilities at the minimum epoch `0`
(timely initial capabilities) and an empty `InBuffer`. -/
def initialOp (st : StatefulBatchState σ Ω) : OpState σ V Ω := ⟨some 0, [], st⟩

/-- Invariant carried across activations, relative to the frontier last
reported: the capability epoch never passes the frontier, the `InBuffer` holds
sorted distinct epochs, and no buffered epoch is behind the frontier already
reported. -/
def OpInv (fp : Frontier) (os : OpState σ V Ω) : Prop :=
  ∀ c, os.cap = some c →
    frLE (some c) fp = true ∧
    (ibEpochs os.inbuf).Sorted (· < ·) ∧
    ∀ e ∈ ibEpochs os.inbuf, frLE fp (some e) = true

/-- The shapes a Python callback return value can take, as far as the return
type validation of operators.rs distinguishes them. -/
inductive PyObj where
  | tuple2 (a b : PyObj) : PyObj
  | pybool (b : Bool) : PyObj
  | pylist (items : List PyObj) : PyObj
  | pydatetime (t : Timestamp) : PyObj
  | pynone : PyObj
  | pyother (tyName : String) : PyObj

/-- `type(..).name` as used in the validation error messages. -/
def PyObj.typeName : PyObj → String
  | .tuple2 _ _ => "tuple"
  | .pybool _ => "bool"
  | .pylist _ => "list"
  | .pydatetime _ => "datetime"
  | .pynone => "NoneType"
  | .pyother n => n

/-- One message of a raised error's `reraise` context chain, kept structural so
that what each message names is explicit.  The `calling*` messages are the ones
of the form "error calling `...` in step S for key K". -/
inductive PyErrMsg where
  | notTuple (got : String) : PyErrMsg
  | notBool (got : String) : PyErrMsg
  | notList (got : String) : PyErrMsg
  | notDatetime (got : String) : PyErrMsg
  | extractingEmit : PyErrMsg
  | callingOnBatch (step key : String) : PyErrMsg
  | callingOnNotify (step key : String) : PyErrMsg
  | callingOnEof (step key : String) : PyErrMsg
  | callingNotifyAt (step key : String) : PyErrMsg
deriving DecidableEq

/-- Whether one context message names both the given step and the given key. -/
def PyErrMsg.namesStepKey (step key : String) : PyErrMsg → Bool
  | .callingOnBatch s k => s = step && k = key
  | .callingOnNotify s k => s = step && k = key
  | .callingOnEof s k => s = step && k = key
  | .callingNotifyAt s k => s = step && k = key
  | _ => false

/-- Whether a raised error (its whole context chain, innermost first) names
both the step and the key anywhere. -/
def errNames (step key : String) (e : List PyErrMsg) : Bool :=
  e.any (PyErrMsg.namesStepKey step key)

/-- `StatefulBatchLogic::extract_ret` (operators.rs:495-511): require a 2-tuple,
then a `bool` second element (`IsComplete`, `true` = `Discard`), then a list
first element. -/
def extractRet (res : PyObj) : Except (List PyErrMsg) (List PyObj × Bool) :=
  match res with
  | .tuple2 a b =>
    match b with
    | .pybool bb =>
      match a with
      | .pylist items => .ok (items, bb)
      | _ => .error [.notList a.typeName]
    | _ => .error [.notBool b.typeName]
  | _ => .error [.notTuple res.typeName]

/-- Return-value handling of `StatefulBatchState::on_batch`
(operators.rs:647-654): `extract_ret` reraised with "error extracting ..." and
then with "error calling `StatefulBatch.on_batch` in step {} for key {}". -/
def onBatchRet (step key : String) (res : PyObj) :
    Except (List PyErrMsg) (List PyObj × Bool) :=
  (extractRet res).mapError
    (fun e => e ++ [.extractingEmit, .callingOnBatch step key])

/-- Return-value handling of `StatefulBatchState::on_notify`
(operators.rs:670-677): as `on_batch`, with the `on_notify` context. -/
def onNotifyRet (step key : String) (res : PyObj) :
    Except (List PyErrMsg) (List PyObj × Bool) :=
  (extractRet res).mapError
    (fun e => e ++ [.extractingEmit, .callingOnNotify step key])

/-- Return-value handling of `StatefulBatchState::on_eof`
(operators.rs:721): `extract_ret` reraised only with "error extracting
`(emit, is_complete)`" — the step/key context on 714-718 wraps the callback
invocation, not the return-value extraction. -/
def onEofRet (res : PyObj) : Except (List PyErrMsg) (List PyObj × Bool) :=
  (extractRet res).mapError (fun e => e ++ [.extractingEmit])

/-- Return-value handling of `StatefulBatchState::notify_at`
(operators.rs:691-696): extract an optional datetime; the "did not return a
`datetime`" reraise carries no step/key context (the step/key context on
685-690 wraps the callback invocation only). -/
def notifyAtRet (res : PyObj) : Except (List PyErrMsg) (Option Timestamp) :=
  match res with
  | .pydatetime t => .ok (some t)
  | .pynone => .ok none
  | _ => .error [.notDatetime res.typeName]

/-- Whether a callback return value deviates from the `(emit, is_complete)`
contract. -/
def retDeviates (res : PyObj) : Bool :=
  match extractRet res with
  | .ok _ => false
  | .error _ => true

/-- The `FixedPartitionedSink` behaviour consumed by the partitioned output
operator: the authoritative partition list, the partition builder, and the
partition `snapshot` callback.  `π` is the opaque partition writer type. -/
structure SinkImpl (π Ω : Type*) where
  listParts : List StateKey
  buildPartF : String → StateKey → Option Ω → π
  partSnapshotF : π → Ω

/-- The diagnostic carried by the abort in `OutputState::init`'s builder
(outputs.rs:191-203): it names the offending key, the step, and every known
partition key. -/
structure OutputDiag where
  step : String
  key : StateKey
  knownParts : List StateKey
deriving DecidableEq

/-- `OutputState` (outputs.rs:163-176): per-step container for partition
writers and their awoken set. -/
structure OutputState (π Ω : Type*) where
  stepId : String
  localStateStore : Option (List (SerializedSnapshot Ω))
  parts : List (StateKey × π)
  awoken : List StateKey
  snapshotMode : SnapshotMode

/-- The builder closure of `OutputState::init` (outputs.rs:189-205): assert
that the key is a known partition — aborting with a diagnostic naming the step
and all known partitions otherwise — then build the partition. -/
def outputBuilder (sink : SinkImpl π Ω) (stepId : String) (key : StateKey)
    (resume : Option Ω) : Except OutputDiag π :=
  if key ∈ sink.listParts then .ok (sink.buildPartF stepId key resume)
  else .error ⟨stepId, key, sink.listParts⟩

/-- `OutputState::insert` (outputs.rs:225-230): run the builder (whose failure
aborts the program) and store the new partition writer. -/
def outputInsert (sink : SinkImpl π Ω) (st : OutputState π Ω) (key : StateKey)
    (resume : Option Ω) : Except OutputDiag (OutputState π Ω) :=
  (outputBuilder sink st.stepId key resume).map fun p =>
    { st with parts := mapInsert key p st.parts }

/-- The resume-snapshot replay of `OutputState::init` (outputs.rs:216-221):
insert a partition for every snapshot read back from the local state store. -/
def outputInitReplay (sink : SinkImpl π Ω) :
    OutputState π Ω → List (StateKey × Option Ω) →
    Except OutputDiag (OutputState π Ω)
  | st, [] => .ok st
  | st, (k, s) :: rest =>
    match outputInsert sink st k s with
    | .ok st' => outputInitReplay sink st' rest
    | .error d => .error d

/-- `OutputState::snap` (outputs.rs:256-288): serialize one partition's
snapshot (tombstone when the writer is absent). -/
def outputSnap (sink : SinkImpl π Ω) (st : OutputState π Ω) (key : StateKey)
    (epoch : Epoch) : SerializedSnapshot Ω :=
  ⟨st.stepId, key, epoch, (mapLookup key st.parts).map sink.partSnapshotF⟩

/-- `OutputState::batch_snapshots` (outputs.rs:306-321): when `snapshot_mode`
is `Batch`, drain `awoken` (ascending, `pop_first`) into snapshots and write
them to the local state store when one is present; otherwise do nothing. -/
def outputBatchSnapshots (sink : SinkImpl π Ω) (st : OutputState π Ω)
    (epoch : Epoch) : OutputState π Ω × List (SerializedSnapshot Ω) :=
  if st.snapshotMode.batch then
    let snaps := st.awoken.map (fun k => outputSnap sink st k epoch)
    ({ st with
        awoken := []
        localStateStore := st.localStateStore.map (· ++ snaps) },
      snaps)
  else (st, [])

/-- The closing phase of `partitioned_output` (outputs.rs:477-494): emit one
`()` on the clock output for the closed epoch, then emit
`batch_snapshots(epoch)` on the batch snapshot stream. -/
def closingPhase (sink : SinkImpl π Ω) (st : OutputState π Ω) (epoch : Epoch) :
    OutputState π Ω × List Unit × List (SerializedSnapshot Ω) :=
  let r := outputBatchSnapshots sink st epoch
  (r.1, [()], r.2)

section ContainerLemmas

variable {α : Type*} [LinearOrder α] {β : Type*}

theorem mem_setInsert (a x : α) (l : List α) :
    x ∈ setInsert a l ↔ x = a ∨ x ∈ l := by
  induction l with
  | nil => simp [setInsert]
  | cons b t ih =>
    by_cases hab : a < b
    · simp [setInsert, hab]
    · by_cases heq : a = b
      · subst heq
        simp [setInsert, hab]
      · simp only [setInsert, if_neg hab, if_neg heq, List.mem_cons, ih]
        tauto

theorem sorted_setInsert (a : α) (l : List α) (h : l.Sorted (· < ·)) :
    (setInsert a l).Sorted (· < ·) := by
  induction l with
  | nil => simp [setInsert]
  | cons b t ih =>
    rw [List.sorted_cons] at h
    obtain ⟨hb, ht⟩ := h
    by_cases hab : a < b
    · rw [setInsert, if_pos hab, List.sorted_cons]
      constructor
      · intro x hx
        rcases List.mem_cons.mp hx with h | h
        · exact h ▸ hab
        · exact lt_trans hab (hb x h)
      · rw [List.sorted_cons]; exact ⟨hb, ht⟩
    · by_cases heq : a = b
      · rw [setInsert, if_neg hab, if_pos heq, List.sorted_cons]
        exact ⟨hb, ht⟩
      · rw [setInsert, if_neg hab, if_neg heq, List.sorted_cons]
        refine ⟨?_, ih ht⟩
        intro x hx
        rcases (mem_setInsert a x t).mp hx with h | h
        · subst h
          exact lt_of_le_of_ne (not_lt.mp hab) (Ne.symm heq)
        · exact hb x h

theorem mapLookup_mapErase (k : α) (l : List (α × β)) :
    mapLookup k (mapErase k l) = none := by
  induction l with
  | nil => rfl
  | cons kv t ih =>
    by_cases h : kv.1 = k
    · simpa [mapErase, h] using ih
    · simpa [mapErase, mapLookup, h, Ne.symm h] using ih

theorem mapLookup_mapErase_ne (k k' : α) (l : List (α × β)) (h : k' ≠ k) :
    mapLookup k' (mapErase k l) = mapLookup k' l := by
  induction l with
  | nil => rfl
  | cons kv t ih =>
    by_cases hk : kv.1 = k
    · have hne : ¬k' = kv.1 := fun hc => h (hc.trans hk)
      simp [mapErase, hk, mapLookup, hne, h, ih]
    · by_cases hk' : k' = kv.1
      · simp [mapErase, hk, mapLookup, hk']
      · simp [mapErase, hk, mapLookup, hk', ih]

theorem mapLookup_mapInsert (k : α) (v : β) (l : List (α × β)) :
    mapLookup k (mapInsert k v l) = some v := by
  induction l with
  | nil => simp [mapInsert, mapLookup]
  | cons kv t ih =>
    obtain ⟨k', v'⟩ := kv
    by_cases h1 : k < k'
    · simp [mapInsert, h1, mapLookup]
    · by_cases h2 : k = k'
      · simp [mapInsert, h1, h2, mapLookup]
      · simp [mapInsert, h1, h2, mapLookup, ih]

theorem mapLookup_mapInsert_ne (k k' : α) (v : β) (l : List (α × β))
    (h : k' ≠ k) : mapLookup k' (mapInsert k v l) = mapLookup k' l := by
  induction l with
  | nil => simp [mapInsert, mapLookup, h]
  | cons kv t ih =>
    obtain ⟨ka, va⟩ := kv
    by_cases h1 : k < ka
    · simp [mapInsert, h1, mapLookup, h]
    · by_cases h2 : k = ka
      · subst h2
        simp [mapInsert, h1, mapLookup, h]
      · by_cases h3 : k' = ka
        · simp [mapInsert, h1, h2, mapLookup, h3]
        · simp [mapInsert, h1, h2, mapLookup, h3, ih]

theorem mapLookup_mem (k : α) (v : β) (l : List (α × β))
    (h : mapLookup k l = some v) : (k, v) ∈ l := by
  induction l with
  | nil => simp [mapLookup] at h
  | cons kv t ih =>
    obtain ⟨k', v'⟩ := kv
    by_cases hk : k = k'
    · simp only [mapLookup, if_pos hk] at h
      obtain rfl := Option.some_injective _ h
      simp [hk]
    · simp only [mapLookup, if_neg hk] at h
      exact List.mem_cons_of_mem _ (ih h)

theorem frLE_trans {a b c : Frontier} (h1 : frLE a b = true)
    (h2 : frLE b c = true) : frLE a c = true := by
  cases a <;> cases b <;> cases c <;> simp_all [frLE]
  exact le_trans h1 h2

theorem frLE_refl (a : Frontier) : frLE a a = true := by
  cases a <;> simp [frLE]

theorem mapLookup_eq_some_of_mem_nodup (l : List (α × β))
    (hnd : (l.map (·.1)).Nodup) (k : α) (v : β) (h : (k, v) ∈ l) :
    mapLookup k l = some v := by
  induction l with
  | nil => simp at h
  | cons kv t ih =>
    simp only [List.map_cons, List.nodup_cons] at hnd
    rcases List.mem_cons.mp h with h | h
    · subst h
      simp [mapLookup]
    · by_cases hk : k = kv.1
      · exfalso
        exact hnd.1 (List.mem_map.mpr ⟨(k, v), h, hk⟩)
      · simp only [mapLookup, if_neg hk]
        exact ih hnd.2 h

theorem foldlMin_spec (t : List Nat) :
    ∀ a : Nat, (t.foldl min a = a ∨ t.foldl min a ∈ t) ∧
      t.foldl min a ≤ a ∧ ∀ x ∈ t, t.foldl min a ≤ x := by
  induction t with
  | nil => intro a; simp
  | cons b t ih =>
    intro a
    have h := ih (min a b)
    refine ⟨?_, ?_, ?_⟩
    · rcases h.1 with h1 | h1
      · rcases min_choice a b with hm | hm
        · left
          rw [List.foldl_cons, h1, hm]
        · right
          rw [List.foldl_cons, h1, hm]
          exact List.mem_cons_self _ _
      · right
        exact List.mem_cons_of_mem _ h1
    · calc t.foldl min (min a b) ≤ min a b := h.2.1
        _ ≤ a := min_le_left _ _
    · intro x hx
      rcases List.mem_cons.mp hx with hx | hx
      · subst hx
        calc t.foldl min (min a x) ≤ min a x := h.2.1
          _ ≤ x := min_le_right _ _
      · exact h.2.2 x hx

theorem listMin_eq_none_iff (l : List Nat) : listMin l = none ↔ l = [] := by
  cases l <;> simp [listMin]

theorem listMin_spec (l : List Nat) (d : Nat) (h : listMin l = some d) :
    d ∈ l ∧ ∀ x ∈ l, d ≤ x := by
  match l with
  | [] => simp [listMin] at h
  | a :: t =>
    simp only [listMin, Option.some_inj] at h
    subst h
    have hs := foldlMin_spec t a
    constructor
    · rcases hs.1 with h1 | h1
      · rw [h1]; exact List.mem_cons_self _ _
      · exact List.mem_cons_of_mem _ h1
    · intro x hx
      rcases List.mem_cons.mp hx with hx | hx
      · subst hx; exact hs.2.1
      · exact hs.2.2 x hx

end ContainerLemmas

/-- C6: `StatefulBatchState::notify_keys(now)` returns exactly the keys whose
cached scheduled time is `<= now`, in ascending (sorted `BTreeMap`) key order;
the method borrows the state immutably, so in the embedding it is a pure
function of the state and leaves `sched_cache` untouched. -/
theorem notify_keys_spec {σ Ω : Type*} (st : StatefulBatchState σ Ω)
    (now : Timestamp)
    (hsort : (st.schedCache.map (·.1)).Sorted (· < ·)) :
    (∀ k, k ∈ sbNotifyKeys st now ↔
      ∃ t, mapLookup k st.schedCache = some t ∧ t ≤ now) ∧
    (sbNotifyKeys st now).Sorted (· < ·) := by
  have hnd : (st.schedCache.map (·.1)).Nodup := hsort.nodup
  constructor
  · intro k
    constructor
    · intro hk
      simp only [sbNotifyKeys, List.mem_map, List.mem_filter,
        decide_eq_true_eq] at hk
      obtain ⟨kv, ⟨hmem, hle⟩, hfst⟩ := hk
      exact ⟨kv.2, mapLookup_eq_some_of_mem_nodup _ hnd _ _ (hfst ▸ hmem), hle⟩
    · rintro ⟨t, hlook, hle⟩
      have hmem := mapLookup_mem _ _ _ hlook
      simp only [sbNotifyKeys, List.mem_map, List.mem_filter,
        decide_eq_true_eq]
      exact ⟨(k, t), ⟨hmem, hle⟩, rfl⟩
  · have hsub : List.Sublist
        ((st.schedCache.filter (fun kv => kv.2 ≤ now)).map (·.1))
        (st.schedCache.map (·.1)) :=
      (List.filter_sublist _).map _
    exact hsort.sublist hsub

/-- Witness for `notify_keys_spec` at a concrete state. -/
theorem notify_keys_spec_witness :
    "a" ∈ sbNotifyKeys
      (σ := Unit) (Ω := Unit)
      ⟨"s", none, [], [("a", (3 : Int))], [], .Batch, 0⟩ 5 :=
  ((notify_keys_spec ⟨"s", none, [], [("a", 3)], [], .Batch, 0⟩ 5
    (by simp)).1 "a").mpr ⟨3, by simp [mapLookup], by norm_num⟩

/-- C7: `StatefulBatchState::activate_after(now)` is `None` exactly when
`sched_cache` is empty, and otherwise is the minimum over all cached scheduled
times `t` of the saturating delta `max(t - now, 0)` — hence non-negative by
construction and `0` whenever some scheduled time is already due. -/
theorem activate_after_spec {σ Ω : Type*} (st : StatefulBatchState σ Ω)
    (now : Timestamp) :
    (sbActivateAfter st now = none ↔ st.schedCache = []) ∧
    (∀ d, sbActivateAfter st now = some d →
      (∃ kv ∈ st.schedCache, d = (kv.2 - now).toNat) ∧
      ∀ kv ∈ st.schedCache, d ≤ (kv.2 - now).toNat) ∧
    ((∃ kv ∈ st.schedCache, kv.2 ≤ now) → sbActivateAfter st now = some 0) := by
  refine ⟨?_, ?_, ?_⟩
  · rw [sbActivateAfter, listMin_eq_none_iff, List.map_eq_nil_iff]
  · intro d hd
    have hs := listMin_spec _ _ hd
    constructor
    · obtain ⟨kv, hkv, hveq⟩ := List.mem_map.mp hs.1
      exact ⟨kv, hkv, hveq.symm⟩
    · intro kv hkv
      exact hs.2 _ (List.mem_map.mpr ⟨kv, hkv, rfl⟩)
  · rintro ⟨kv, hkv, hdue⟩
    have hz : (kv.2 - now).toNat = 0 :=
      Int.toNat_of_nonpos (sub_nonpos.mpr hdue)
    match hmin : sbActivateAfter st now with
    | none =>
      rw [sbActivateAfter, listMin_eq_none_iff, List.map_eq_nil_iff] at hmin
      rw [hmin] at hkv
      simp at hkv
    | some d =>
      have hs := listMin_spec _ _ hmin
      have hle := hs.2 _ (List.mem_map.mpr ⟨kv, hkv, rfl⟩)
      rw [hz, Nat.le_zero] at hle
      rw [hle]

/-- Witness for `activate_after_spec` at a concrete state: a due key makes the
returned duration zero. -/
theorem activate_after_spec_witness :
    sbActivateAfter
      (σ := Unit) (Ω := Unit)
      ⟨"s", none, [], [("a", (3 : Int)), ("b", 9)], [], .Batch, 0⟩ 5 = some 0 :=
  (activate_after_spec ⟨"s", none, [], [("a", 3), ("b", 9)], [], .Batch, 0⟩
    5).2.2 ⟨("a", 3), by simp, by norm_num⟩

/-- C8: when a key has no live logic in the state store cache,
`StatefulBatchState::notify_at` returns `None` silently — for every possible
logic behaviour, so no user callback can influence (or be required for) the
result. -/
theorem notify_at_missing_logic {σ V Ω : Type*}
    (ul : StatefulLogicImpl σ V Ω) (st : StatefulBatchState σ Ω)
    (key : StateKey) (h : mapLookup key st.logics = none) :
    sbNotifyAt ul st key = none := by
  rw [sbNotifyAt, h]

/-- Witness for `notify_at_missing_logic` at a concrete state. -/
theorem notify_at_missing_logic_witness :
    sbNotifyAt
      ⟨fun _ => (0 : Nat), fun s _ => (s, ([] : List Nat), false),
        fun s => (s, [], false), fun s => (s, [], false),
        fun _ => some 7, fun s => s⟩
      ⟨"s", none, [], [], [], .Batch, 0⟩ "a" = none :=
  notify_at_missing_logic _ _ _ rfl

theorem outputInitReplay_bad {π Ω : Type*} (sink : SinkImpl π Ω) :
    ∀ (snaps : List (StateKey × Option Ω)) (st : OutputState π Ω),
    (∃ p ∈ snaps, p.1 ∉ sink.listParts) →
    ∃ d, outputInitReplay sink st snaps = .error d ∧
      d.step = st.stepId ∧ d.knownParts = sink.listParts := by
  intro snaps
  induction snaps with
  | nil => rintro st ⟨p, hp, _⟩; simp at hp
  | cons ks rest ih =>
    rintro st ⟨p, hp, hbad⟩
    obtain ⟨k, s⟩ := ks
    by_cases hk : k ∈ sink.listParts
    · have hok : outputInsert sink st k s =
          .ok { st with parts := mapInsert k (sink.buildPartF st.stepId k s) st.parts } := by
        simp [outputInsert, outputBuilder, hk, Except.map]
      rcases List.mem_cons.mp hp with h | h
      · subst h
        exact absurd hk hbad
      · obtain ⟨d, hd, hstep, hknown⟩ :=
          ih { st with
                parts := mapInsert k (sink.buildPartF st.stepId k s) st.parts }
            ⟨p, h, hbad⟩
        exact ⟨d, by simp only [outputInitReplay, hok]; exact hd, hstep, hknown⟩
    · refine ⟨⟨st.stepId, k, sink.listParts⟩, ?_, rfl, rfl⟩
      simp [outputInitReplay, outputInsert, outputBuilder, hk, Except.map]

/-- C5: when the partitioned output operator must build a partition for a key
that is not in the sink's `list_parts()` — whether replayed from a resume
snapshot or created on first write — the program aborts with a diagnostic
naming the step and every known partition key, and no partition is built. -/
theorem output_unknown_part_aborts {π Ω : Type*} (sink : SinkImpl π Ω)
    (st : OutputState π Ω) (key : StateKey) (resume : Option Ω)
    (h : key ∉ sink.listParts) :
    outputBuilder sink st.stepId key resume =
      .error ⟨st.stepId, key, sink.listParts⟩ ∧
    outputInsert sink st key resume =
      .error ⟨st.stepId, key, sink.listParts⟩ ∧
    ∀ snaps : List (StateKey × Option Ω), (key, resume) ∈ snaps →
      ∃ d, outputInitReplay sink st snaps = .error d ∧
        d.step = st.stepId ∧ d.knownParts = sink.listParts := by
  refine ⟨?_, ?_, ?_⟩
  · simp [outputBuilder, h]
  · simp [outputInsert, outputBuilder, h, Except.map]
  · intro snaps hmem
    exact outputInitReplay_bad sink snaps st ⟨(key, resume), hmem, h⟩

/-- Witness for `output_unknown_part_aborts`: a resume snapshot for key "p2"
when `list_parts()` is `["p0", "p1"]` aborts with a diagnostic listing both. -/
theorem output_unknown_part_aborts_witness :
    outputInsert
      (⟨["p0", "p1"], fun _ _ _ => (0 : Nat), fun p => p⟩ : SinkImpl Nat Nat)
      ⟨"out_step", none, [], [], .Batch⟩ "p2" none =
      .error ⟨"out_step", "p2", ["p0", "p1"]⟩ :=
  (output_unknown_part_aborts
    (⟨["p0", "p1"], fun _ _ _ => 0, fun p => p⟩ : SinkImpl Nat Nat)
    ⟨"out_step", none, [], [], .Batch⟩ "p2" none (by decide)).2.1

/-- C9: the closing phase of the partitioned output operator emits exactly one
`()` on the clock output for the closed epoch, and drains `awoken` into
snapshots on the batch snapshot stream when and only when the snapshot mode is
`Batch`; under `Immediate` mode it emits no snapshots and leaves the state
(including `awoken`) unchanged. -/
theorem closing_phase_spec {π Ω : Type*} (sink : SinkImpl π Ω)
    (st : OutputState π Ω) (epoch : Epoch) :
    (closingPhase sink st epoch).2.1 = [()] ∧
    (st.snapshotMode = .Batch →
      (closingPhase sink st epoch).1.awoken = [] ∧
      (closingPhase sink st epoch).2.2 =
        st.awoken.map (fun k => outputSnap sink st k epoch) ∧
      ((closingPhase sink st epoch).2.2.map (·.key)) = st.awoken ∧
      ∀ s ∈ (closingPhase sink st epoch).2.2, s.epoch = epoch) ∧
    (st.snapshotMode = .Immediate →
      (closingPhase sink st epoch).2.2 = [] ∧
      (closingPhase sink st epoch).1 = st) := by
  refine ⟨rfl, ?_, ?_⟩
  · intro hmode
    refine ⟨?_, ?_, ?_, ?_⟩
    · simp [closingPhase, outputBatchSnapshots, hmode, SnapshotMode.batch]
    · simp [closingPhase, outputBatchSnapshots, hmode, SnapshotMode.batch]
    · simp only [closingPhase, outputBatchSnapshots, hmode,
        SnapshotMode.batch, if_pos, List.map_map]
      exact List.map_id st.awoken
    · simp [closingPhase, outputBatchSnapshots, hmode, SnapshotMode.batch,
        outputSnap]
  · intro hmode
    constructor <;>
      simp [closingPhase, outputBatchSnapshots, hmode, SnapshotMode.batch]

/-- Witness for `closing_phase_spec` in `Batch` mode at a concrete state. -/
theorem closing_phase_spec_witness :
    (closingPhase (⟨["a"], fun _ _ _ => (0 : Nat), fun p => p⟩ : SinkImpl Nat Nat)
      ⟨"s", none, [("a", 5)], ["a"], .Batch⟩ 7).1.awoken = [] :=
  ((closing_phase_spec _ _ 7).2.1 rfl).1

/-- C4 counterexample: a deviant (non-2-tuple) return value from `on_eof`, and
a non-datetime return from `notify_at`, each raise a typed error whose whole
context chain never names the step or the key — refuting the claim that every
return-contract deviation produces an error naming both. -/
theorem ret_deviation_missing_step_key :
    retDeviates (PyObj.pyother "int") = true ∧
    onEofRet (PyObj.pyother "int") =
      .error [.notTuple "int", .extractingEmit] ∧
    errNames "stateful_batch" "a" [.notTuple "int", .extractingEmit] = false ∧
    notifyAtRet (PyObj.pyother "int") = .error [.notDatetime "int"] ∧
    errNames "stateful_batch" "a" [.notDatetime "int"] = false :=
  ⟨rfl, rfl, rfl, rfl, rfl⟩

/-- C4 amended: a deviant return value from `on_batch` or `on_notify` raises a
typed error naming both the step and the key; a deviant return value from
`on_eof` or a non-datetime return from `notify_at` raises the typed error
without the step/key context (the step/key naming there wraps only errors
raised by the callback invocation itself). -/
theorem ret_validation_spec (step key : String) (res : PyObj) :
    (∀ e, onBatchRet step key res = .error e → errNames step key e = true) ∧
    (∀ e, onNotifyRet step key res = .error e → errNames step key e = true) ∧
    (∀ e, onEofRet res = .error e → errNames step key e = false) ∧
    (∀ e, notifyAtRet res = .error e → errNames step key e = false) := by
  have hbase : ∀ e, extractRet res = .error e → errNames step key e = false := by
    intro e he
    match res with
    | .tuple2 a b =>
      match b with
      | .pybool bb =>
        match a with
        | .pylist items => simp [extractRet] at he
        | .tuple2 x y | .pybool x | .pydatetime x | .pynone | .pyother x =>
          simp only [extractRet] at he
          obtain rfl := (Except.error.injEq _ _).mp he
          rfl
      | .tuple2 x y | .pylist x | .pydatetime x | .pynone | .pyother x =>
        simp only [extractRet] at he
        obtain rfl := (Except.error.injEq _ _).mp he
        rfl
    | .pybool x | .pylist x | .pydatetime x | .pynone | .pyother x =>
      simp only [extractRet] at he
      obtain rfl := (Except.error.injEq _ _).mp he
      rfl
  refine ⟨?_, ?_, ?_, ?_⟩
  · intro e he
    rw [onBatchRet] at he
    match hx : extractRet res with
    | .ok r => rw [hx] at he; simp [Except.mapError] at he
    | .error e0 =>
      rw [hx] at he
      simp only [Except.mapError, Except.error.injEq] at he
      subst he
      simp [errNames, PyErrMsg.namesStepKey]
  · intro e he
    rw [onNotifyRet] at he
    match hx : extractRet res with
    | .ok r => rw [hx] at he; simp [Except.mapError] at he
    | .error e0 =>
      rw [hx] at he
      simp only [Except.mapError, Except.error.injEq] at he
      subst he
      simp [errNames, PyErrMsg.namesStepKey]
  · intro e he
    rw [onEofRet] at he
    match hx : extractRet res with
    | .ok r => rw [hx] at he; simp [Except.mapError] at he
    | .error e0 =>
      rw [hx] at he
      simp only [Except.mapError, Except.error.injEq] at he
      subst he
      have h0 := hbase e0 hx
      simp only [errNames, List.any_append, List.any_cons, List.any_nil,
        Bool.or_false] at h0 ⊢
      simp [h0, PyErrMsg.namesStepKey]
  · intro e he
    match res with
    | .pydatetime t => simp [notifyAtRet] at he
    | .pynone => simp [notifyAtRet] at he
    | .tuple2 x y | .pybool x | .pylist x | .pyother x =>
      simp only [notifyAtRet] at he
      obtain rfl := (Except.error.injEq _ _).mp he
      rfl

/-- Witness for `ret_validation_spec`: a deviant `on_batch` return produces an
error chain that names the step and the key. -/
theorem ret_validation_spec_witness :
    errNames "s" "k"
      [.notTuple "int", .extractingEmit, .callingOnBatch "s" "k"] = true :=
  (ret_validation_spec "s" "k" (PyObj.pyother "int")).1 _ rfl

/-- C2: `StatefulBatchState::snapshots(epoch, is_epoch_closed)` drains `awoken`
completely exactly when the mode is `Immediate` or the epoch is closed,
producing one snapshot tagged with that epoch per formerly-awoken key in
ascending key order and appending them to the `LocalStateStore` log when one is
present; otherwise it changes nothing and returns nothing.  No other state
operation removes keys from `awoken`: `remove`, `schedule` and `insert` leave
it unchanged and the callbacks only extend it. -/
theorem snapshots_spec {σ V Ω : Type*} (ul : StatefulLogicImpl σ V Ω)
    (st : StatefulBatchState σ Ω) (epoch : Epoch) (closed : Bool)
    (hsort : st.awoken.Sorted (· < ·)) :
    (st.snapshotMode.immediate = true ∨ closed = true →
      (sbSnapshots ul st epoch closed).1.awoken = [] ∧
      (sbSnapshots ul st epoch closed).2 =
        st.awoken.map (fun k => sbSnap ul st k epoch) ∧
      ((sbSnapshots ul st epoch closed).2.map (·.key)) = st.awoken ∧
      ((sbSnapshots ul st epoch closed).2.map (·.key)).Sorted (· < ·) ∧
      (∀ s ∈ (sbSnapshots ul st epoch closed).2, s.epoch = epoch) ∧
      (∀ log, st.localStateStore = some log →
        (sbSnapshots ul st epoch closed).1.localStateStore =
          some (log ++ (sbSnapshots ul st epoch closed).2)) ∧
      (st.localStateStore = none →
        (sbSnapshots ul st epoch closed).1.localStateStore = none)) ∧
    (st.snapshotMode.immediate = false → closed = false →
      sbSnapshots ul st epoch closed = (st, [])) ∧
    (∀ key, (sbRemove st key).awoken = st.awoken) ∧
    (∀ key time, (sbSchedule st key time).awoken = st.awoken) ∧
    (∀ key resume, (sbInsert ul st key resume).awoken = st.awoken) ∧
    (∀ key values r, sbOnBatch ul st key values = some r →
      ∀ x ∈ st.awoken, x ∈ r.1.awoken) ∧
    (∀ key r, sbOnNotify ul st key = some r →
      ∀ x ∈ st.awoken, x ∈ r.1.awoken) ∧
    (∀ key r, sbOnEof ul st key = some r →
      ∀ x ∈ st.awoken, x ∈ r.1.awoken) := by
  have hmapkey :
      (st.awoken.map (fun k => sbSnap ul st k epoch)).map (·.key) = st.awoken := by
    rw [List.map_map]
    exact List.map_id st.awoken
  refine ⟨?_, ?_, fun key => rfl, fun key time => rfl, fun key resume => rfl,
    ?_, ?_, ?_⟩
  · intro hcond
    have hif : (st.snapshotMode.immediate || closed) = true := by
      rcases hcond with h | h <;> simp [h]
    refine ⟨?_, ?_, ?_, ?_, ?_, ?_, ?_⟩
    · simp [sbSnapshots, hif]
    · simp [sbSnapshots, hif]
    · simp only [sbSnapshots, hif, if_true]
      exact hmapkey
    · simp only [sbSnapshots, hif, if_true]
      rw [hmapkey]
      exact hsort
    · intro s hs
      simp only [sbSnapshots, hif, if_true, List.mem_map] at hs
      obtain ⟨k, _, rfl⟩ := hs
      rfl
    · intro log hlog
      simp [sbSnapshots, hif, hlog]
    · intro hlog
      simp [sbSnapshots, hif, hlog]
  · intro h1 h2
    simp [sbSnapshots, h1, h2]
  · intro key values r h x hx
    rw [sbOnBatch, Option.map_eq_some'] at h
    obtain ⟨s, _, rfl⟩ := h
    exact (mem_setInsert key x st.awoken).mpr (Or.inr hx)
  · intro key r h x hx
    rw [sbOnNotify, Option.map_eq_some'] at h
    obtain ⟨s, _, rfl⟩ := h
    exact (mem_setInsert key x st.awoken).mpr (Or.inr hx)
  · intro key r h x hx
    rw [sbOnEof, Option.map_eq_some'] at h
    obtain ⟨s, _, rfl⟩ := h
    exact (mem_setInsert key x st.awoken).mpr (Or.inr hx)

/-- Witness for `snapshots_spec`: in `Batch` mode on an open epoch, the state
and `awoken` are untouched and nothing is emitted. -/
theorem snapshots_spec_witness :
    sbSnapshots
      ⟨fun _ => (0 : Nat), fun s _ => (s, ([] : List Nat), false),
        fun s => (s, [], false), fun s => (s, [], false),
        fun _ => none, fun s => s⟩
      ⟨"s", none, [("a", 1)], [], ["a"], .Batch, 0⟩ 4 false =
      (⟨"s", none, [("a", 1)], [], ["a"], .Batch, 0⟩, []) :=
  (snapshots_spec _ ⟨"s", none, [("a", 1)], [], ["a"], .Batch, 0⟩ 4 false
    (by simp)).2.1 rfl rfl

theorem mem_foldl_setInsert {α : Type*} [LinearOrder α] (l : List α) :
    ∀ (acc : List α) (x : α),
      x ∈ l.foldl (fun acc e => setInsert e acc) acc ↔ x ∈ acc ∨ x ∈ l := by
  induction l with
  | nil => intro acc x; simp
  | cons a t ih =>
    intro acc x
    rw [List.foldl_cons, ih, mem_setInsert]
    simp only [List.mem_cons]
    tauto

theorem sorted_foldl_setInsert {α : Type*} [LinearOrder α] (l : List α) :
    ∀ acc : List α, acc.Sorted (· < ·) →
      (l.foldl (fun acc e => setInsert e acc) acc).Sorted (· < ·) := by
  induction l with
  | nil => intro acc h; exact h
  | cons a t ih =>
    intro acc h
    exact ih _ (sorted_setInsert a acc h)

theorem mem_selectEpochs (lastOut : Epoch) (ibEps : List Epoch)
    (frontier : Frontier) (resume : Epoch) (e : Epoch) :
    e ∈ selectEpochs lastOut ibEps frontier resume ↔
      (((e = lastOut ∨ e ∈ ibEps) ∧ frontier.isClosed e = true) ∨
        (e = frontier.getD lastOut ∧ resume ≤ frontier.getD lastOut)) := by
  have hs0 : ∀ x, x ∈ ibEps.foldl (fun acc e => setInsert e acc)
      (setInsert lastOut []) ↔ x = lastOut ∨ x ∈ ibEps := by
    intro x
    rw [mem_foldl_setInsert, mem_setInsert]
    simp
  by_cases hres : resume ≤ frontier.getD lastOut
  · simp only [selectEpochs, if_pos hres, mem_setInsert, List.mem_filter, hs0]
    tauto
  · simp only [selectEpochs, if_neg hres, List.mem_filter, hs0]
    tauto

theorem sorted_selectEpochs (lastOut : Epoch) (ibEps : List Epoch)
    (frontier : Frontier) (resume : Epoch) :
    (selectEpochs lastOut ibEps frontier resume).Sorted (· < ·) := by
  have hsorted0 : (ibEps.foldl (fun acc e => setInsert e acc)
      (setInsert lastOut [])).Sorted (· < ·) :=
    sorted_foldl_setInsert _ _ (by simp [setInsert])
  have hsorted1 : ((ibEps.foldl (fun acc e => setInsert e acc)
      (setInsert lastOut [])).filter
        (fun e => frontier.isClosed e)).Sorted (· < ·) :=
    hsorted0.sublist (List.filter_sublist _)
  by_cases hres : resume ≤ frontier.getD lastOut
  · simp only [selectEpochs, if_pos hres]
    exact sorted_setInsert _ _ hsorted1
  · simp only [selectEpochs, if_neg hres]
    exact hsorted1

/-- C3: the set of epochs selected by one activation of `stateful_batch` is
exactly `({last_output_epoch} ∪ epochs(InBuffer))` restricted to epochs closed
by the input frontier, together with `frontier_epoch` exactly when
`frontier_epoch >= resume_epoch`; and the selected epochs are visited in
strictly ascending order. -/
theorem select_epochs_spec (lastOut : Epoch) (ibEps : List Epoch)
    (frontier : Frontier) (resume : Epoch) :
    (∀ e, e ∈ selectEpochs lastOut ibEps frontier resume ↔
      (((e = lastOut ∨ e ∈ ibEps) ∧ frontier.isClosed e = true) ∨
        (e = frontier.getD lastOut ∧ resume ≤ frontier.getD lastOut))) ∧
    (selectEpochs lastOut ibEps frontier resume).Sorted (· < ·) :=
  ⟨mem_selectEpochs lastOut ibEps frontier resume,
    sorted_selectEpochs lastOut ibEps frontier resume⟩

section InBufferLemmas

variable {V : Type*}

theorem ibEpochs_ibPush (e : Epoch) (x : StateKey × V) (ib : InBuf V) :
    ibEpochs (ibPush e x ib) = setInsert e (ibEpochs ib) := by
  induction ib with
  | nil => rfl
  | cons h t ih =>
    obtain ⟨e', xs⟩ := h
    by_cases h1 : e < e'
    · simp [ibPush, h1, ibEpochs, setInsert]
    · by_cases h2 : e = e'
      · simp [ibPush, h1, h2, ibEpochs, setInsert]
      · simp only [ibPush, if_neg h1, if_neg h2, ibEpochs, List.map_cons,
          setInsert]
        exact congrArg (fun l => e' :: l) ih

theorem ibEpochs_foldl_ibPush (arrivals : List (Epoch × StateKey × V)) :
    ∀ (ib : InBuf V) (e' : Epoch),
      e' ∈ ibEpochs (arrivals.foldl (fun acc a => ibPush a.1 a.2 acc) ib) ↔
        e' ∈ ibEpochs ib ∨ ∃ a ∈ arrivals, a.1 = e' := by
  induction arrivals with
  | nil => intro ib e'; simp
  | cons a rest ih =>
    intro ib e'
    rw [List.foldl_cons, ih, ibEpochs_ibPush, mem_setInsert]
    simp only [List.mem_cons]
    constructor
    · rintro (((h | h) | ⟨b, hb, hbe⟩))
      · exact Or.inr ⟨a, Or.inl rfl, h.symm⟩
      · exact Or.inl h
      · exact Or.inr ⟨b, Or.inr hb, hbe⟩
    · rintro ((h | ⟨b, (hb | hb), hbe⟩))
      · exact Or.inl (Or.inr h)
      · exact Or.inl (Or.inl (by rw [← hbe, hb]))
      · exact Or.inr ⟨b, hb, hbe⟩

theorem sorted_ibEpochs_foldl_ibPush (arrivals : List (Epoch × StateKey × V)) :
    ∀ ib : InBuf V, (ibEpochs ib).Sorted (· < ·) →
      (ibEpochs (arrivals.foldl (fun acc a => ibPush a.1 a.2 acc) ib)).Sorted
        (· < ·) := by
  induction arrivals with
  | nil => intro ib h; exact h
  | cons a rest ih =>
    intro ib h
    rw [List.foldl_cons]
    exact ih _ (by rw [ibEpochs_ibPush]; exact sorted_setInsert _ _ h)

theorem ibRemove_sublist (e : Epoch) (ib : InBuf V) :
    List.Sublist (ibEpochs (ibRemove e ib).2) (ibEpochs ib) := by
  induction ib with
  | nil => simp [ibRemove, ibEpochs]
  | cons h t ih =>
    obtain ⟨e', xs⟩ := h
    by_cases h1 : e = e'
    · simp only [ibRemove, if_pos h1, ibEpochs, List.map_cons]
      exact List.sublist_cons_self _ _
    · simp only [ibRemove, if_neg h1, ibEpochs, List.map_cons]
      exact ih.cons₂ _

theorem mem_ibEpochs_ibRemove (e e' : Epoch) (ib : InBuf V)
    (h : e' ∈ ibEpochs (ibRemove e ib).2) : e' ∈ ibEpochs ib :=
  (ibRemove_sublist e ib).mem h

theorem sorted_ibEpochs_ibRemove (e : Epoch) (ib : InBuf V)
    (h : (ibEpochs ib).Sorted (· < ·)) :
    (ibEpochs (ibRemove e ib).2).Sorted (· < ·) :=
  h.sublist (ibRemove_sublist e ib)

theorem not_mem_ibEpochs_ibRemove (e : Epoch) (ib : InBuf V)
    (h : (ibEpochs ib).Sorted (· < ·)) :
    e ∉ ibEpochs (ibRemove e ib).2 := by
  induction ib with
  | nil => simp [ibRemove, ibEpochs]
  | cons hd t ih =>
    obtain ⟨e', xs⟩ := hd
    simp only [ibEpochs, List.map_cons, List.sorted_cons] at h
    by_cases h1 : e = e'
    · simp only [ibRemove, if_pos h1]
      intro hmem
      exact absurd (h1 ▸ h.1 e hmem) (lt_irrefl e)
    · simp only [ibRemove, if_neg h1, ibEpochs, List.map_cons, List.mem_cons]
      rintro (hc | hc)
      · exact h1 hc
      · exact ih h.2 hc

end InBufferLemmas

section ProcessEpochsLemmas

variable {σ V Ω : Type*} (ul : StatefulLogicImpl σ V Ω) (f : Frontier)
  (now : Timestamp)

theorem processEpochs_nil (st : StatefulBatchState σ Ω) (ib : InBuf V) :
    processEpochs ul f now [] st ib = ((st, ib), [], []) := rfl

theorem processEpochs_cons (e : Epoch) (rest : List Epoch)
    (st : StatefulBatchState σ Ω) (ib : InBuf V) :
    processEpochs ul f now (e :: rest) st ib =
      ((processEpochs ul f now rest (processOneEpoch ul f now st ib e).1.1
          (processOneEpoch ul f now st ib e).1.2).1,
        (processOneEpoch ul f now st ib e).2.1.map
            (fun kv => (e, kv.1, kv.2)) ++
          (processEpochs ul f now rest (processOneEpoch ul f now st ib e).1.1
            (processOneEpoch ul f now st ib e).1.2).2.1,
        (processOneEpoch ul f now st ib e).2.2 ++
          (processEpochs ul f now rest (processOneEpoch ul f now st ib e).1.1
            (processOneEpoch ul f now st ib e).1.2).2.2) := rfl

theorem processOneEpoch_inbuf (st : StatefulBatchState σ Ω) (ib : InBuf V)
    (e : Epoch) : (processOneEpoch ul f now st ib e).1.2 = (ibRemove e ib).2 :=
  rfl

theorem listGetLastMem {α : Type*} : ∀ (l : List α) (m : α),
    l.getLast? = some m → m ∈ l := by
  intro l
  induction l with
  | nil => intro m h; simp at h
  | cons a t ih =>
    intro m h
    match t with
    | [] =>
      simp only [List.getLast?_singleton, Option.some_inj] at h
      simp [h]
    | b :: t' =>
      rw [List.getLast?_cons_cons] at h
      exact List.mem_cons_of_mem _ (ih m h)

theorem sorted_le_getLast : ∀ (l : List Epoch), l.Sorted (· < ·) →
    ∀ x ∈ l, ∀ m, l.getLast? = some m → x ≤ m := by
  intro l
  induction l with
  | nil => intro _ x hx; simp at hx
  | cons a t ih =>
    intro hs x hx m hm
    rw [List.sorted_cons] at hs
    match t with
    | [] =>
      simp only [List.getLast?_singleton, Option.some_inj] at hm
      rcases List.mem_cons.mp hx with h | h
      · subst h; subst hm; exact le_refl x
      · simp at h
    | b :: t' =>
      rw [List.getLast?_cons_cons] at hm
      rcases List.mem_cons.mp hx with h | h
      · subst h
        exact le_of_lt (hs.1 m (listGetLastMem _ m hm))
      · exact ih hs.2 x h m hm

theorem pairwise_le_map_const {β : Type*} (e : Epoch) (l : List β) :
    (l.map (fun _ => e)).Pairwise (· ≤ ·) := by
  induction l with
  | nil => simp
  | cons a t ih =>
    rw [List.map_cons, List.pairwise_cons]
    refine ⟨?_, ih⟩
    intro x hx
    obtain ⟨_, _, rfl⟩ := List.mem_map.mp hx
    exact le_refl e

theorem processEpochs_emissions_mem :
    ∀ (l : List Epoch) (st : StatefulBatchState σ Ω) (ib : InBuf V),
      ∀ p ∈ (processEpochs ul f now l st ib).2.1, p.1 ∈ l := by
  intro l
  induction l with
  | nil => intro st ib p hp; rw [processEpochs_nil] at hp; simp at hp
  | cons e rest ih =>
    intro st ib p hp
    rw [processEpochs_cons] at hp
    rcases List.mem_append.mp hp with h | h
    · obtain ⟨kv, _, rfl⟩ := List.mem_map.mp h
      exact List.mem_cons_self _ _
    · exact List.mem_cons_of_mem _ (ih _ _ p h)

theorem processEpochs_emissions_sorted :
    ∀ (l : List Epoch), l.Sorted (· < ·) →
      ∀ (st : StatefulBatchState σ Ω) (ib : InBuf V),
        ((processEpochs ul f now l st ib).2.1.map (·.1)).Sorted (· ≤ ·) := by
  intro l
  induction l with
  | nil => intro _ st ib; rw [processEpochs_nil]; simp
  | cons e rest ih =>
    intro hs st ib
    rw [List.sorted_cons] at hs
    rw [processEpochs_cons, List.map_append]
    rw [List.Sorted, List.pairwise_append]
    refine ⟨?_, ih hs.2 _ _, ?_⟩
    · rw [List.map_map]
      exact pairwise_le_map_const e _
    · intro x hx y hy
      rw [List.map_map] at hx
      obtain ⟨_, _, rfl⟩ := List.mem_map.mp hx
      obtain ⟨q, hq, rfl⟩ := List.mem_map.mp hy
      exact le_of_lt (hs.1 q.1 (processEpochs_emissions_mem ul f now rest _ _ q hq))

theorem processEpochs_inbuf_facts :
    ∀ (l : List Epoch) (st : StatefulBatchState σ Ω) (ib : InBuf V),
      (ibEpochs ib).Sorted (· < ·) →
      (ibEpochs (processEpochs ul f now l st ib).1.2).Sorted (· < ·) ∧
      ∀ e' ∈ ibEpochs (processEpochs ul f now l st ib).1.2,
        e' ∈ ibEpochs ib ∧ e' ∉ l := by
  intro l
  induction l with
  | nil =>
    intro st ib hs
    rw [processEpochs_nil]
    exact ⟨hs, fun e' he' => ⟨he', by simp⟩⟩
  | cons e rest ih =>
    intro st ib hs
    rw [processEpochs_cons]
    have hs1 : (ibEpochs (processOneEpoch ul f now st ib e).1.2).Sorted
        (· < ·) := by
      rw [processOneEpoch_inbuf]
      exact sorted_ibEpochs_ibRemove e ib hs
    obtain ⟨ha, hb⟩ := ih (processOneEpoch ul f now st ib e).1.1
      (processOneEpoch ul f now st ib e).1.2 hs1
    refine ⟨ha, ?_⟩
    intro e' he'
    obtain ⟨hmem1, hnot1⟩ := hb e' he'
    rw [processOneEpoch_inbuf] at hmem1
    refine ⟨mem_ibEpochs_ibRemove e e' ib hmem1, ?_⟩
    intro hc
    rcases List.mem_cons.mp hc with hc | hc
    · subst hc
      exact not_mem_ibEpochs_ibRemove e' ib hs hmem1
    · exact hnot1 hc

end ProcessEpochsLemmas

section ActivationLemmas

variable {σ V Ω : Type*} (ul : StatefulLogicImpl σ V Ω)

theorem frLE_some_some (a b : Epoch) : frLE (some a) (some b) = true ↔ a ≤ b := by
  simp [frLE]

theorem activation_none (ib₀ : InBuf V) (st₀ : StatefulBatchState σ Ω)
    (arrivals : List (Epoch × StateKey × V)) (frontier : Frontier)
    (now : Timestamp) :
    activation ul ⟨none, ib₀, st₀⟩ arrivals frontier now =
      (⟨none, ib₀, st₀⟩, [], []) := rfl

theorem activation_some (c₀ : Epoch) (ib₀ : InBuf V)
    (st₀ : StatefulBatchState σ Ω) (arrivals : List (Epoch × StateKey × V))
    (frontier : Frontier) (now : Timestamp) :
    activation ul ⟨some c₀, ib₀, st₀⟩ arrivals frontier now =
      (⟨if frontier.isEof then none
          else some ((selectEpochs c₀
            (ibEpochs (arrivals.foldl (fun acc a => ibPush a.1 a.2 acc) ib₀))
            frontier st₀.resumeEpoch).getLast?.getD c₀),
        (processEpochs ul frontier now
          (selectEpochs c₀
            (ibEpochs (arrivals.foldl (fun acc a => ibPush a.1 a.2 acc) ib₀))
            frontier st₀.resumeEpoch)
          st₀ (arrivals.foldl (fun acc a => ibPush a.1 a.2 acc) ib₀)).1.2,
        (processEpochs ul frontier now
          (selectEpochs c₀
            (ibEpochs (arrivals.foldl (fun acc a => ibPush a.1 a.2 acc) ib₀))
            frontier st₀.resumeEpoch)
          st₀ (arrivals.foldl (fun acc a => ibPush a.1 a.2 acc) ib₀)).1.1⟩,
        (processEpochs ul frontier now
          (selectEpochs c₀
            (ibEpochs (arrivals.foldl (fun acc a => ibPush a.1 a.2 acc) ib₀))
            frontier st₀.resumeEpoch)
          st₀ (arrivals.foldl (fun acc a => ibPush a.1 a.2 acc) ib₀)).2.1,
        (processEpochs ul frontier now
          (selectEpochs c₀
            (ibEpochs (arrivals.foldl (fun acc a => ibPush a.1 a.2 acc) ib₀))
            frontier st₀.resumeEpoch)
          st₀ (arrivals.foldl (fun acc a => ibPush a.1 a.2 acc) ib₀)).2.2) :=
  rfl

theorem activation_spec (os : OpState σ V Ω)
    (arrivals : List (Epoch × StateKey × V)) (frontier : Frontier)
    (now : Timestamp) (fp : Frontier)
    (hinv : OpInv fp os) (hf : frLE fp frontier = true)
    (ha : ∀ x ∈ arrivals, frLE fp (some x.1) = true) :
    OpInv frontier (activation ul os arrivals frontier now).1 ∧
    ((activation ul os arrivals frontier now).2.1.map (·.1)).Sorted (· ≤ ·) ∧
    (∀ c, os.cap = some c →
      ∀ p ∈ (activation ul os arrivals frontier now).2.1, c ≤ p.1) ∧
    (∀ c', (activation ul os arrivals frontier now).1.cap = some c' →
      (∀ p ∈ (activation ul os arrivals frontier now).2.1, p.1 ≤ c') ∧
      (∀ c, os.cap = some c → c ≤ c')) ∧
    (os.cap = none → (activation ul os arrivals frontier now).2.1 = [] ∧
      (activation ul os arrivals frontier now).1.cap = none) := by
  obtain ⟨cap₀, ib₀, st₀⟩ := os
  cases cap₀ with
  | none =>
    rw [activation_none]
    refine ⟨?_, by simp, ?_, ?_, fun _ => ⟨rfl, rfl⟩⟩
    · intro c hc; simp at hc
    · intro c hc; simp at hc
    · intro c' hc'; simp at hc'
  | some c₀ =>
    obtain ⟨hcfp, hsortib₀, hibf₀⟩ := hinv c₀ rfl
    rw [activation_some]
    set ib : InBuf V := arrivals.foldl (fun acc a => ibPush a.1 a.2 acc) ib₀
      with hib
    set sel : List Epoch :=
      selectEpochs c₀ (ibEpochs ib) frontier st₀.resumeEpoch with hseleq
    have hsortib : (ibEpochs ib).Sorted (· < ·) :=
      sorted_ibEpochs_foldl_ibPush arrivals ib₀ hsortib₀
    have hmemib : ∀ e ∈ ibEpochs ib, frLE fp (some e) = true := by
      intro e he
      rcases (ibEpochs_foldl_ibPush arrivals ib₀ e).mp he with h | ⟨a, hmem, hae⟩
      · exact hibf₀ e h
      · exact hae ▸ ha a hmem
    have hsortsel : sel.Sorted (· < ·) := sorted_selectEpochs _ _ _ _
    have hlow : ∀ e ∈ sel, c₀ ≤ e := by
      intro e he
      rcases (mem_selectEpochs _ _ _ _ e).mp he with ⟨he', _⟩ | ⟨hfe, _⟩
      · rcases he' with h | h
        · exact h.symm ▸ le_refl c₀
        · exact (frLE_some_some c₀ e).mp (frLE_trans hcfp (hmemib e h))
      · cases frontier with
        | none => simp only [Option.getD_none] at hfe; exact hfe.symm ▸ le_refl c₀
        | some fv =>
          simp only [Option.getD_some] at hfe
          subst hfe
          exact (frLE_some_some c₀ e).mp (frLE_trans hcfp hf)
    have hupper : ∀ fv, frontier = some fv → ∀ e ∈ sel, e ≤ fv := by
      intro fv hfv e he
      subst hfv
      rcases (mem_selectEpochs _ _ _ _ e).mp he with ⟨_, hcl⟩ | ⟨hfe, _⟩
      · simp only [Frontier.isClosed, decide_eq_true_eq] at hcl
        exact le_of_lt hcl
      · simp only [Option.getD_some] at hfe
        exact hfe.symm ▸ le_refl fv
    have hems_mem := processEpochs_emissions_mem ul frontier now sel st₀ ib
    have hems_sorted :=
      processEpochs_emissions_sorted ul frontier now sel hsortsel st₀ ib
    have hinb := processEpochs_inbuf_facts ul frontier now sel st₀ ib hsortib
    refine ⟨?_, hems_sorted, ?_, ?_, ?_⟩
    · intro c' hc'
      cases frontier with
      | none => simp [Frontier.isEof] at hc'
      | some fv =>
        simp only [Frontier.isEof, if_neg Bool.false_ne_true,
          Option.some_inj] at hc'
        have hc'fv : c' ≤ fv := by
          subst hc'
          match hgl : sel.getLast? with
          | some m =>
            simp only [hgl, Option.getD_some]
            exact hupper fv rfl m (listGetLastMem sel m hgl)
          | none =>
            simp only [hgl, Option.getD_none]
            exact (frLE_some_some c₀ fv).mp (frLE_trans hcfp hf)
        refine ⟨(frLE_some_some c' fv).mpr hc'fv, hinb.1, ?_⟩
        intro e he
        obtain ⟨hmem, hnot⟩ := hinb.2 e he
        rw [frLE_some_some]
        by_contra hlt
        push_neg at hlt
        apply hnot
        exact (mem_selectEpochs _ _ _ _ e).mpr
          (Or.inl ⟨Or.inr hmem, by simp [Frontier.isClosed, hlt]⟩)
    · intro c hc p hp
      obtain rfl : c = c₀ := by
        simpa using hc.symm
      exact hlow p.1 (hems_mem p hp)
    · intro c' hc'
      cases frontier with
      | none => simp [Frontier.isEof] at hc'
      | some fv =>
        simp only [Frontier.isEof, if_neg Bool.false_ne_true,
          Option.some_inj] at hc'
        constructor
        · intro p hp
          have hpsel := hems_mem p hp
          match hgl : sel.getLast? with
          | some m =>
            rw [← hc', hgl, Option.getD_some]
            exact sorted_le_getLast sel hsortsel p.1 hpsel m hgl
          | none =>
            rw [List.getLast?_eq_none_iff] at hgl
            rw [hgl] at hpsel
            simp at hpsel
        · intro c hc
          obtain rfl : c = c₀ := by simpa using hc.symm
          match hgl : sel.getLast? with
          | some m =>
            rw [← hc', hgl, Option.getD_some]
            exact hlow m (listGetLastMem sel m hgl)
          | none =>
            rw [← hc', hgl, Option.getD_none]
    · intro hc; simp at hc

end ActivationLemmas

section TraceLemmas

variable {σ V Ω : Type*} (ul : StatefulLogicImpl σ V Ω)

theorem runTrace_nil (os : OpState σ V Ω) : runTrace ul os [] = (os, []) := rfl

theorem runTrace_cons (os : OpState σ V Ω) (a : ActIn V)
    (rest : List (ActIn V)) :
    runTrace ul os (a :: rest) =
      ((runTrace ul
          (activation ul os a.arrivals a.frontier a.now).1 rest).1,
        (activation ul os a.arrivals a.frontier a.now).2.1 ++
          (runTrace ul
            (activation ul os a.arrivals a.frontier a.now).1 rest).2) := rfl

theorem runTrace_facts :
    ∀ (ins : List (ActIn V)) (os : OpState σ V Ω) (fp : Frontier),
      OpInv fp os → TraceOk fp ins = true →
      ((runTrace ul os ins).2.map (·.1)).Sorted (· ≤ ·) ∧
      (∀ c, os.cap = some c → ∀ p ∈ (runTrace ul os ins).2, c ≤ p.1) ∧
      (os.cap = none → (runTrace ul os ins).2 = []) := by
  intro ins
  induction ins with
  | nil =>
    intro os fp _ _
    rw [runTrace_nil]
    exact ⟨by simp, fun c _ p hp => absurd hp (by simp), fun _ => rfl⟩
  | cons a rest ih =>
    intro os fp hinv hok
    rw [TraceOk] at hok
    rw [Bool.and_eq_true, Bool.and_eq_true] at hok
    obtain ⟨⟨h1, h2⟩, h3⟩ := hok
    have h2' : ∀ x ∈ a.arrivals, frLE fp (some x.1) = true := by
      intro x hx
      exact List.all_eq_true.mp h2 x hx
    obtain ⟨hinv', hsorted1, hlow1, hconj4, hnone1⟩ :=
      activation_spec ul os a.arrivals a.frontier a.now fp hinv h1 h2'
    obtain ⟨hsorted2, hlow2, hnone2⟩ :=
      ih (activation ul os a.arrivals a.frontier a.now).1 a.frontier hinv' h3
    rw [runTrace_cons]
    refine ⟨?_, ?_, ?_⟩
    · rw [List.map_append, List.Sorted, List.pairwise_append]
      refine ⟨hsorted1, hsorted2, ?_⟩
      intro x hx y hy
      obtain ⟨p, hp, rfl⟩ := List.mem_map.mp hx
      obtain ⟨q, hq, rfl⟩ := List.mem_map.mp hy
      match hcap' : (activation ul os a.arrivals a.frontier a.now).1.cap with
      | none =>
        rw [hnone2 hcap'] at hq
        simp at hq
      | some c' =>
        exact le_trans ((hconj4 c' hcap').1 p hp) (hlow2 c' hcap' q hq)
    · intro c hc p hp
      rcases List.mem_append.mp hp with h | h
      · exact hlow1 c hc p h
      · match hcap' : (activation ul os a.arrivals a.frontier a.now).1.cap with
        | none =>
          rw [hnone2 hcap'] at h
          simp at h
        | some c' =>
          exact le_trans ((hconj4 c' hcap').2 c hc) (hlow2 c' hcap' p h)
    · intro hc
      obtain ⟨he1, hc'⟩ := hnone1 hc
      rw [he1, hnone2 hc']
      rfl

end TraceLemmas

/-- C1: over any run of the `stateful_batch` operator that respects the
dataflow substrate's contract (frontiers only advance and arrivals are never
behind the previously reported frontier), the epochs of the downstream
emissions are globally non-decreasing: within one activation the selected
epochs are processed in ascending order with the output capabilities
downgraded to each epoch before its emissions, and across activations no
record is emitted at an epoch lower than any previously emitted record. -/
theorem stateful_batch_epoch_monotonic {σ V Ω : Type*}
    (ul : StatefulLogicImpl σ V Ω) (st0 : StatefulBatchState σ Ω)
    (ins : List (ActIn V)) (h : TraceOk (some 0) ins = true) :
    ((runTrace ul (initialOp st0) ins).2.map (·.1)).Sorted (· ≤ ·) := by
  have hinv0 : OpInv (some 0) (initialOp (σ := σ) (V := V) (Ω := Ω) st0) := by
    intro c hc
    obtain rfl : c = 0 := by simpa [initialOp] using hc.symm
    exact ⟨by simp [frLE], by simp [initialOp, ibEpochs], by
      intro e he; simp [initialOp, ibEpochs] at he⟩
  exact (runTrace_facts ul ins (initialOp st0) (some 0) hinv0 h).1

/-- Witness for `stateful_batch_epoch_monotonic`: a two-activation run (one
item at epoch 0 processed eagerly at frontier 1, then EOF). -/
theorem stateful_batch_epoch_monotonic_witness :
    ((runTrace
        (⟨fun _ => (0 : Nat), fun s vs => (s + vs.length, [s], false),
          fun s => (s, [s], false), fun s => (s, [], true),
          fun _ => none, fun s => s⟩ : StatefulLogicImpl Nat Nat Nat)
        (initialOp ⟨"s", none, [], [], [], .Batch, 0⟩)
        [⟨[(0, "a", 1)], some 1, 0⟩, ⟨[], none, 0⟩]).2.map
      (·.1)).Sorted (· ≤ ·) :=
  stateful_batch_epoch_monotonic _ _ _ rfl

section SchedCacheLemmas

variable {σ V Ω : Type*} (ul : StatefulLogicImpl σ V Ω)

theorem notifySteps_sched (hretain : ∀ s, (ul.onNotifyF s).2.2 = false) :
    ∀ (ks : List StateKey) (st : StatefulBatchState σ Ω),
      (notifySteps ul st ks).1.schedCache = st.schedCache := by
  intro ks
  induction ks with
  | nil => intro st; rfl
  | cons k rest ih =>
    intro st
    match hcall : sbOnNotify ul st k with
    | none =>
      simp only [notifySteps, hcall]
      exact ih st
    | some (st1, out, disc) =>
      have hcall' := hcall
      rw [sbOnNotify, Option.map_eq_some'] at hcall'
      obtain ⟨s, _, heq⟩ := hcall'
      have hdisc : disc = false := by
        have h2 := congrArg (fun p => p.2.2) heq
        simp only at h2
        rw [← h2]
        exact hretain s
      have hst1 : st1.schedCache = st.schedCache := by
        have h1 := congrArg (fun p => p.1.schedCache) heq
        simp only at h1
        exact h1.symm
      simp only [notifySteps, hcall, hdisc, if_neg Bool.false_ne_true]
      rw [ih st1]
      exact hst1

theorem reschedPhase_id (hnone : ∀ s, ul.notifyAtF s = none)
    (st : StatefulBatchState σ Ω) : reschedPhase ul st = st := by
  rw [reschedPhase]
  have hgen : ∀ (l : List StateKey) (acc : StatefulBatchState σ Ω),
      l.foldl
        (fun acc k =>
          match sbNotifyAt ul acc k with
          | some t => sbSchedule acc k t
          | none => acc)
        acc = acc := by
    intro l
    induction l with
    | nil => intro acc; rfl
    | cons k rest ih =>
      intro acc
      have hna : sbNotifyAt ul acc k = none := by
        rw [sbNotifyAt]
        cases mapLookup k acc.logics with
        | none => rfl
        | some s => exact hnone s
      rw [List.foldl_cons]
      have : (match sbNotifyAt ul acc k with
          | some t => sbSchedule acc k t
          | none => acc) = acc := by rw [hna]
      rw [this]
      exact ih acc
  exact hgen st.awoken st

theorem sbSnapshots_sched (st : StatefulBatchState σ Ω) (e : Epoch)
    (b : Bool) : (sbSnapshots ul st e b).1.schedCache = st.schedCache := by
  rw [sbSnapshots]
  split <;> rfl

theorem processOneEpoch_sched
    (hretain : ∀ s, (ul.onNotifyF s).2.2 = false)
    (hnone : ∀ s, ul.notifyAtF s = none)
    (fv : Epoch) (now : Timestamp) (st : StatefulBatchState σ Ω) (e : Epoch) :
    (processOneEpoch ul (some fv) now st ([] : InBuf V) e).1.1.schedCache =
      st.schedCache ∧
    (processOneEpoch ul (some fv) now st ([] : InBuf V) e).1.2 = [] := by
  refine ⟨?_, rfl⟩
  show (sbSnapshots ul
      (reschedPhase ul (notifySteps ul st (sbNotifyKeys st now)).1) e
      (Frontier.isClosed (some fv) e)).1.schedCache = st.schedCache
  rw [sbSnapshots_sched, reschedPhase_id ul hnone]
  exact notifySteps_sched ul hretain (sbNotifyKeys st now) st

theorem processEpochs_sched
    (hretain : ∀ s, (ul.onNotifyF s).2.2 = false)
    (hnone : ∀ s, ul.notifyAtF s = none) (fv : Epoch) (now : Timestamp) :
    ∀ (l : List Epoch) (st : StatefulBatchState σ Ω),
      (processEpochs ul (some fv) now l st ([] : InBuf V)).1.1.schedCache =
        st.schedCache := by
  intro l
  induction l with
  | nil => intro st; rfl
  | cons e rest ih =>
    intro st
    rw [processEpochs_cons]
    obtain ⟨hsched, hib⟩ := processOneEpoch_sched ul hretain hnone fv now st e
      (V := V)
    simp only
    rw [hib, ih (processOneEpoch ul (some fv) now st [] e).1.1, hsched]

end SchedCacheLemmas

/-- C10: `remove(K)` deletes `K`'s `sched_cache` entry; and it is the only
operation that does — in an activation with no pending input where every
`on_notify` retains its logic and every `notify_at` returns `None`, a key `K`
scheduled at time `t` keeps that stale entry, so `notify_keys(now)` returns
`K` again on every activation whose `now` is at or past `t`. -/
theorem sched_cache_stale_timer {σ V Ω : Type*}
    (ul : StatefulLogicImpl σ V Ω)
    (hretain : ∀ s, (ul.onNotifyF s).2.2 = false)
    (hnone : ∀ s, ul.notifyAtF s = none)
    (os : OpState σ V Ω) (c₀ fv : Epoch) (K : StateKey) (t now : Timestamp)
    (hcap : os.cap = some c₀) (hib : os.inbuf = [])
    (hsched : mapLookup K os.state.schedCache = some t) :
    (∀ (st : StatefulBatchState σ Ω) (key : StateKey),
      mapLookup key (sbRemove st key).schedCache = none) ∧
    mapLookup K
      ((activation ul os [] (some fv) now).1.state.schedCache) = some t ∧
    (∀ now', t ≤ now' →
      K ∈ sbNotifyKeys (activation ul os [] (some fv) now).1.state now') := by
  obtain ⟨cap, ib, st⟩ := os
  simp only at hcap hib hsched
  subst hcap
  subst hib
  have hkey : mapLookup K
      ((activation ul ⟨some c₀, [], st⟩ [] (some fv) now).1.state.schedCache) =
      some t := by
    rw [activation_some]
    simp only [List.foldl_nil]
    rw [processEpochs_sched ul hretain hnone fv now]
    exact hsched
  refine ⟨fun st' key => mapLookup_mapErase key st'.schedCache, hkey, ?_⟩
  intro now' hle
  have hmem := mapLookup_mem _ _ _ hkey
  rw [sbNotifyKeys]
  refine List.mem_map.mpr ⟨(K, t), List.mem_filter.mpr ⟨hmem, ?_⟩, rfl⟩
  exact decide_eq_true hle

/-- Witness for `sched_cache_stale_timer` at a concrete state: the stale entry
for key "k" at time 3 survives an activation whose `now` is 10. -/
theorem sched_cache_stale_timer_witness :
    mapLookup "k"
      ((activation
        (⟨fun _ => (0 : Nat), fun s _ => (s, ([] : List Nat), false),
          fun s => (s, [], false), fun s => (s, [], false),
          fun _ => none, fun s => s⟩ : StatefulLogicImpl Nat Nat Nat)
        ⟨some 0, [], ⟨"s", none, [("k", 5)], [("k", 3)], [], .Batch, 0⟩⟩
        [] (some 1) 10).1.state.schedCache) = some 3 :=
  (sched_cache_stale_timer _ (fun _ => rfl) (fun _ => rfl)
    ⟨some 0, [], ⟨"s", none, [("k", 5)], [("k", 3)], [], .Batch, 0⟩⟩
    0 1 "k" 3 10 rfl rfl (by simp [mapLookup])).2.1

end Bytewax
